import Mathlib

/-!
Shallow embedding of the `structomap` serializer (src/serializer.go).

Go values handled by the serializer are modelled by the inductive type
`Value`.  A `Value.record` models a Go struct as seen through the
reflection layer: its field list holds exactly the exported
(publicly-readable) fields, name to value, with unique names (Go struct
field names are unique).  `Value.seq` models a Go slice or array.

Go's `map[string]interface{}` is modelled as an association list with
unique keys (`jsonMap`); `mapSet` is Go map assignment (overwrite in
place or append), `mapDelete` is Go `delete`, `mapLookup` is indexing.

Failures that are panics in Go (`reflect.Value.Interface` on a missing
field inside Pick, `structs.Map` on a non-struct inside PickAll) are
modelled by the `Except SerError` channel of modifier execution; the
`error` value returned by `TransformArray` for a non-sequence input is
a separate, ordinary return value (`TAOut.notASequenceError`), since in
Go a returned error and a panic are different channels.
-/

namespace Structomap

inductive Value where
  | null
  | int (n : Int)
  | str (s : String)
  | bool (b : Bool)
  | record (fields : List (String × Value))
  | seq (elems : List Value)

/-- Errors surfaced while executing modifiers (Go panics from the
reflection layer): a `Pick` naming an absent field, or `PickAll` /
field access on a non-struct value. -/
inductive SerError where
  | noSuchField (name : String)
  | unsupportedType

abbrev jsonMap := List (String × Value)

/-- Go map assignment `m[k] = v`: overwrite the (unique) existing entry
in place, or append a new one. -/
def mapSet : jsonMap → String → Value → jsonMap
  | [], k, v => [(k, v)]
  | (k', v') :: rest, k, v =>
      if k' = k then (k, v) :: rest else (k', v') :: mapSet rest k v

/-- Go `delete(m, k)`: remove the entry for `k` if present; a no-op
otherwise. -/
def mapDelete (m : jsonMap) (k : String) : jsonMap :=
  m.filter (fun kv => kv.1 ≠ k)

/-- Go map indexing `m[k]` (presence included). -/
def mapLookup : jsonMap → String → Option Value
  | [], _ => none
  | (k', v) :: rest, k => if k' = k then some v else mapLookup rest k

def Value.isRecord : Value → Bool
  | .record _ => true
  | _ => false

def Value.isSeq : Value → Bool
  | .seq _ => true
  | _ => false

/-- `structs.Map` from the fatih/structs library as used by `PickAll`:
the exported fields of a struct as a map, a panic on any other value. -/
def structsMap : Value → Except SerError jsonMap
  | .record fields => .ok fields
  | _ => .error .unsupportedType

/-- `reflect.Value.FieldByName(name).Interface()` as used by the pick
loop: the named exported field of a struct; a panic when the name is
absent or the value is not a struct. -/
def fieldByName (v : Value) (name : String) : Except SerError Value :=
  match v with
  | .record fields =>
      match mapLookup fields name with
      | some x => .ok x
      | none => .error (.noSuchField name)
  | _ => .error .unsupportedType

def alwaysTrue (_u : Value) : Bool := true

def alwaysFalse (_u : Value) : Bool := false

def identity (u : Value) : Value := u

/-- Modelled from the spec: `xstrings.ToSnakeCase`, an external library
function absent from src/; per the spec, `useSnakeCase()` turns
`FirstName` into `first_name`: each upper-case letter is lowered, with
an underscore inserted before it except at the start. -/
def toSnakeCase (s : String) : String :=
  (s.toList.foldl
    (fun (acc : String × Bool) c =>
      if c.isUpper then
        ((if acc.2 then acc.1 ++ "_" else acc.1).push c.toLower, true)
      else (acc.1.push c, true))
    ("", false)).1

/-- Modelled from the spec: `xstrings.ToCamelCase`, an external library
function absent from src/; it converts a snake_case string to
PascalCase (`first_name` to `FirstName`): underscores are dropped and
the following letter is capitalized, as is the first letter. -/
def toPascalCase (s : String) : String :=
  (s.toList.foldl
    (fun (acc : String × Bool) c =>
      if c = '_' then (acc.1, true)
      else (acc.1.push (if acc.2 then c.toUpper else c), false))
    ("", true)).1

/-- Modelled from the spec: `xstrings.FirstRuneToLower`, an external
library function absent from src/. -/
def firstRuneToLower (s : String) : String :=
  match s.toList with
  | [] => ""
  | c :: rest => String.mk (c.toLower :: rest)

/-- The composite key converter installed by `UseCamelCase` (src line
192): first rune lowered after PascalCase-ing the snake_case form; per
the spec it turns `FirstName` into `firstName`. -/
def toCamelCaseKey (s : String) : String :=
  firstRuneToLower (toPascalCase (toSnakeCase s))

/-- The process-wide default key case (`KeyCase` constants in the
source); modelled as an explicit parameter of `New`. -/
inductive KeyCase where
  | notSet
  | camelCase
  | pascalCase
  | snakeCase

/-- A registered modifier.  In Go a modifier is `func(jsonMap) jsonMap`
closing over the builder pointer `b` and reading `b.raw` /
`b.reflected` when it runs; here the record bound at execution time is
passed explicitly as the first argument, and reflection panics surface
in the `Except` channel. -/
abbrev Modifier := Value → jsonMap → Except SerError jsonMap

/-- The builder (`Base` in the source): the bound source record, the
registered modifiers in registration order, and the optional key
converter. -/
structure Base where
  raw : Value := .null
  modifiers : List Modifier := []
  keyConverter : Option (String → String) := none

def Base.ConvertKeys (b : Base) (keyConverter : String → String) : Base :=
  { b with keyConverter := some keyConverter }

def Base.UsePascalCase (b : Base) : Base :=
  b.ConvertKeys toPascalCase

def Base.UseCamelCase (b : Base) : Base :=
  b.ConvertKeys toCamelCaseKey

def Base.UseSnakeCase (b : Base) : Base :=
  b.ConvertKeys toSnakeCase

def Base.addDefaultKeyConverter (b : Base) (defaultCase : KeyCase) : Base :=
  match defaultCase with
  | .pascalCase => b.UsePascalCase
  | .snakeCase => b.UseSnakeCase
  | .camelCase => b.UseCamelCase
  | .notSet => b

/-- `New()`: a fresh builder with the process-wide default key case
(an explicit parameter here) installed as its converter. -/
def New (defaultCase : KeyCase) : Base :=
  Base.addDefaultKeyConverter {} defaultCase

def Base.PickAll (b : Base) : Base :=
  { b with modifiers := b.modifiers ++ [fun raw _m => structsMap raw] }

/-- The loop body of the `PickFuncIf` modifier: for each key in order,
read the field, convert it, store it (overwriting). -/
def pickLoop (raw : Value) (converter : Value → Value) :
    List String → jsonMap → Except SerError jsonMap
  | [], m => .ok m
  | key :: rest, m =>
      match fieldByName raw key with
      | .error e => .error e
      | .ok v => pickLoop raw converter rest (mapSet m key (converter v))

def Base.PickFuncIf (b : Base) (p : Value → Bool) (converter : Value → Value)
    (keys : List String) : Base :=
  { b with modifiers := b.modifiers ++
      [fun raw m => if p raw then pickLoop raw converter keys m else .ok m] }

def Base.PickFunc (b : Base) (converter : Value → Value) (keys : List String) : Base :=
  b.PickFuncIf alwaysTrue converter keys

def Base.PickIf (b : Base) (p : Value → Bool) (keys : List String) : Base :=
  b.PickFuncIf p identity keys

def Base.Pick (b : Base) (keys : List String) : Base :=
  b.PickFunc identity keys

def Base.OmitIf (b : Base) (p : Value → Bool) (keys : List String) : Base :=
  { b with modifiers := b.modifiers ++
      [fun raw m => .ok (if p raw then keys.foldl mapDelete m else m)] }

def Base.Omit (b : Base) (keys : List String) : Base :=
  b.OmitIf alwaysTrue keys

def Base.AddFuncIf (b : Base) (p : Value → Bool) (key : String) (f : Value → Value) : Base :=
  { b with modifiers := b.modifiers ++
      [fun raw m => .ok (if p raw then mapSet m key (f raw) else m)] }

def Base.AddIf (b : Base) (p : Value → Bool) (key : String) (value : Value) : Base :=
  b.AddFuncIf p key (fun _m => value)

def Base.AddFunc (b : Base) (key : String) (f : Value → Value) : Base :=
  b.AddFuncIf alwaysTrue key f

def Base.Add (b : Base) (key : String) (value : Value) : Base :=
  b.AddIf alwaysTrue key value

/-- Run the registered modifiers left to right, threading the mapping,
with the bound record `raw` in scope (the body of `result()`'s loop). -/
def runModifiers (raw : Value) : List Modifier → jsonMap → Except SerError jsonMap
  | [], m => .ok m
  | f :: rest, m =>
      match f raw m with
      | .error e => .error e
      | .ok m' => runModifiers raw rest m'

/-- `transformedResult`: a fresh map with every key passed through the
converter once, values unchanged. -/
def transformedResult (conv : String → String) (result : jsonMap) : jsonMap :=
  result.foldl (fun newResult kv => mapSet newResult (conv kv.1) kv.2) []

/-- The final key-casing step of `result()`: the converter applied to
every key when one is installed, identity otherwise. -/
def applyConv : Option (String → String) → jsonMap → jsonMap
  | none, m => m
  | some conv, m => transformedResult conv m

/-- `result()`: fold the modifiers over a fresh empty map, then apply
the key converter if installed. -/
def Base.result (b : Base) : Except SerError jsonMap :=
  match runModifiers b.raw b.modifiers [] with
  | .error e => .error e
  | .ok r => .ok (applyConv b.keyConverter r)

/-- `Transform`, with the builder mutation (`b.raw = entity`) made
explicit: the updated builder is returned next to the result. -/
def Base.TransformSt (b : Base) (entity : Value) : Base × Except SerError jsonMap :=
  let b' := { b with raw := entity }
  (b', b'.result)

def Base.Transform (b : Base) (entity : Value) : Except SerError jsonMap :=
  (b.TransformSt entity).2

/-- The modifier fold of `Transform` before key conversion: the
registered modifiers run left to right over an empty map against the
given record. -/
def rawResult (b : Base) (entity : Value) : Except SerError jsonMap :=
  runModifiers entity b.modifiers []

/-- Go `append` on a possibly-nil slice (`var result []map...`):
appending to the nil slice yields a non-nil one-element slice. -/
def goAppend (s : Option (List jsonMap)) (x : jsonMap) : Option (List jsonMap) :=
  some (s.getD [] ++ [x])

/-- What `TransformArray` hands back on its ordinary return path:
either the built slice (`none` = the nil slice) or the
`NotASequenceError` error value. -/
inductive TAOut where
  | slice (s : Option (List jsonMap))
  | notASequenceError

/-- The loop of `TransformArray`: transform each element in order,
appending to the (initially nil) result slice; a panic from an
element's transform propagates. -/
def taLoop (b : Base) : List Value → Option (List jsonMap) →
    Except SerError (Base × Option (List jsonMap))
  | [], acc => .ok (b, acc)
  | x :: rest, acc =>
      match b.TransformSt x with
      | (_, .error e) => .error e
      | (b', .ok m) => taLoop b' rest (goAppend acc m)

def Base.TransformArray (b : Base) (entities : Value) :
    Except SerError (Base × TAOut) :=
  match entities with
  | .seq xs =>
      match taLoop b xs none with
      | .error e => .error e
      | .ok (b', s) => .ok (b', .slice s)
  | _ => .ok (b, .notASequenceError)

/-- A panic escaping `MustTransformArray`: either a propagated modifier
panic or the `panic(err)` raised on a non-sequence input. -/
inductive MPanic where
  | ser (e : SerError)
  | notASequence

def Base.MustTransformArray (b : Base) (entities : Value) :
    Except MPanic (Base × Option (List jsonMap)) :=
  match b.TransformArray entities with
  | .error e => .error (.ser e)
  | .ok (_, .notASequenceError) => .error .notASequence
  | .ok (b', .slice s) => .ok (b', s)

/-- The spec's description of the batch result: `Transform` applied to
each element in order, a propagated panic aborting the whole batch. -/
def transformEach (b : Base) : List Value → Except SerError (List jsonMap)
  | [] => .ok []
  | x :: rest =>
      match b.Transform x with
      | .error e => .error e
      | .ok m =>
          match transformEach b rest with
          | .error e => .error e
          | .ok ms => .ok (m :: ms)

/-- Whether a `TransformArray` outcome is the returned
`NotASequenceError` error value (a propagated panic is not a returned
error). -/
def returnsNotASequenceError : Except SerError (Base × TAOut) → Bool
  | .ok (_, .notASequenceError) => true
  | _ => false

/-- A registration call on the builder, for quantifying over sequences
of registered modifier operations (the methods `Pick`, `PickAll`,
`Omit`, `Add` and their variants). -/
inductive Op where
  | pickAll
  | pick (keys : List String)
  | pickIf (p : Value → Bool) (keys : List String)
  | pickFunc (c : Value → Value) (keys : List String)
  | pickFuncIf (p : Value → Bool) (c : Value → Value) (keys : List String)
  | omit (keys : List String)
  | omitIf (p : Value → Bool) (keys : List String)
  | add (key : String) (value : Value)
  | addIf (p : Value → Bool) (key : String) (value : Value)
  | addFunc (key : String) (f : Value → Value)
  | addFuncIf (p : Value → Bool) (key : String) (f : Value → Value)

/-- Perform one registration call on the builder. -/
def register (b : Base) : Op → Base
  | .pickAll => b.PickAll
  | .pick keys => b.Pick keys
  | .pickIf p keys => b.PickIf p keys
  | .pickFunc c keys => b.PickFunc c keys
  | .pickFuncIf p c keys => b.PickFuncIf p c keys
  | .omit keys => b.Omit keys
  | .omitIf p keys => b.OmitIf p keys
  | .add key value => b.Add key value
  | .addIf p key value => b.AddIf p key value
  | .addFunc key f => b.AddFunc key f
  | .addFuncIf p key f => b.AddFuncIf p key f

/-- The single modifier each registration call appends (the closure
bodies from the source, with the bound record explicit). -/
def opSem : Op → Modifier
  | .pickAll => fun raw _m => structsMap raw
  | .pick keys => fun raw m =>
      if alwaysTrue raw then pickLoop raw identity keys m else .ok m
  | .pickIf p keys => fun raw m =>
      if p raw then pickLoop raw identity keys m else .ok m
  | .pickFunc c keys => fun raw m =>
      if alwaysTrue raw then pickLoop raw c keys m else .ok m
  | .pickFuncIf p c keys => fun raw m =>
      if p raw then pickLoop raw c keys m else .ok m
  | .omit keys => fun raw m =>
      .ok (if alwaysTrue raw then keys.foldl mapDelete m else m)
  | .omitIf p keys => fun raw m =>
      .ok (if p raw then keys.foldl mapDelete m else m)
  | .add key value => fun raw m =>
      .ok (if alwaysTrue raw then mapSet m key ((fun _m => value) raw) else m)
  | .addIf p key value => fun raw m =>
      .ok (if p raw then mapSet m key ((fun _m => value) raw) else m)
  | .addFunc key f => fun raw m =>
      .ok (if alwaysTrue raw then mapSet m key (f raw) else m)
  | .addFuncIf p key f => fun raw m =>
      .ok (if p raw then mapSet m key (f raw) else m)

theorem register_modifiers (b : Base) (op : Op) :
    (register b op).modifiers = b.modifiers ++ [opSem op] := by
  cases op <;> rfl

theorem register_keyConverter (b : Base) (op : Op) :
    (register b op).keyConverter = b.keyConverter := by
  cases op <;> rfl

theorem runModifiers_append (raw : Value) (ms₁ ms₂ : List Modifier) (m : jsonMap) :
    runModifiers raw (ms₁ ++ ms₂) m
      = (runModifiers raw ms₁ m).bind (fun m' => runModifiers raw ms₂ m') := by
  induction ms₁ generalizing m with
  | nil => rfl
  | cons f rest ih =>
      cases h : f raw m with
      | error e => simp [runModifiers, h, Except.bind]
      | ok m' => simp [runModifiers, h, Except.bind, ih m']

theorem runModifiers_single (raw : Value) (f : Modifier) (m : jsonMap) :
    runModifiers raw [f] m = f raw m := by
  show (match f raw m with
        | Except.error e => (Except.error e : Except SerError jsonMap)
        | Except.ok m' => runModifiers raw [] m') = f raw m
  cases f raw m <;> rfl

theorem runModifiers_snoc (raw : Value) (ms : List Modifier) (f : Modifier) (m : jsonMap) :
    runModifiers raw (ms ++ [f]) m
      = (runModifiers raw ms m).bind (fun m' => f raw m') := by
  rw [runModifiers_append]
  cases runModifiers raw ms m with
  | error e => rfl
  | ok m' => simpa using runModifiers_single raw f m'

theorem transform_mk (raw : Value) (mods : List Modifier)
    (kc : Option (String → String)) (e : Value) :
    Base.Transform ⟨raw, mods, kc⟩ e
      = (runModifiers e mods []).map (applyConv kc) := by
  show (match runModifiers e mods [] with
        | Except.error err => (Except.error err : Except SerError jsonMap)
        | Except.ok r => Except.ok (applyConv kc r)) = _
  cases runModifiers e mods [] <;> rfl

theorem rawResult_mk (raw : Value) (mods : List Modifier)
    (kc : Option (String → String)) (e : Value) :
    rawResult ⟨raw, mods, kc⟩ e = runModifiers e mods [] := rfl

theorem transform_eq (b : Base) (e : Value) :
    b.Transform e = (rawResult b e).map (applyConv b.keyConverter) := by
  cases b with
  | mk raw mods kc => exact transform_mk raw mods kc e

theorem transform_raw_irrel (b : Base) (r e : Value) :
    Base.Transform { b with raw := r } e = b.Transform e := by
  cases b with
  | mk raw mods kc => rfl

theorem transform_snoc_mk (raw : Value) (mods : List Modifier)
    (kc : Option (String → String)) (f : Modifier) (e : Value) :
    Base.Transform ⟨raw, mods ++ [f], kc⟩ e
      = ((runModifiers e mods []).bind (fun m => f e m)).map (applyConv kc) := by
  rw [transform_mk, runModifiers_snoc]

theorem transform_skip_mod (raw : Value) (mods : List Modifier)
    (kc : Option (String → String)) (f : Modifier) (e : Value)
    (h : ∀ m, f e m = .ok m) :
    Base.Transform ⟨raw, mods ++ [f], kc⟩ e
      = Base.Transform ⟨raw, mods, kc⟩ e := by
  rw [transform_snoc_mk, transform_mk]
  cases runModifiers e mods [] with
  | error err => rfl
  | ok m =>
      show ((f e m).map (applyConv kc)) = _
      rw [h m]

theorem transform_congr_mod (raw : Value) (mods : List Modifier)
    (kc : Option (String → String)) (f g : Modifier) (e : Value)
    (h : ∀ m, f e m = g e m) :
    Base.Transform ⟨raw, mods ++ [f], kc⟩ e
      = Base.Transform ⟨raw, mods ++ [g], kc⟩ e := by
  rw [transform_snoc_mk, transform_snoc_mk]
  cases runModifiers e mods [] with
  | error err => rfl
  | ok m =>
      show ((f e m).map (applyConv kc)) = ((g e m).map _)
      rw [h m]

theorem rawResult_snoc_mk (raw : Value) (mods : List Modifier)
    (kc : Option (String → String)) (f : Modifier) (e : Value) :
    rawResult ⟨raw, mods ++ [f], kc⟩ e
      = (runModifiers e mods []).bind (fun m => f e m) := by
  rw [rawResult_mk, runModifiers_snoc]

theorem except_bind_congr {α β γ : Type} (r : Except α β) (f g : β → Except α γ)
    (h : ∀ x, f x = g x) : r.bind f = r.bind g := by
  cases r <;> simp [Except.bind, h]

theorem except_bind_ok {α β γ : Type} (r : Except α β) (f : β → γ) :
    r.bind (fun x => Except.ok (f x)) = r.map f := by
  cases r <;> rfl

theorem mapLookup_mapSet_self (m : jsonMap) (k : String) (v : Value) :
    mapLookup (mapSet m k v) k = some v := by
  induction m with
  | nil => simp [mapSet, mapLookup]
  | cons kv rest ih =>
      obtain ⟨k', v'⟩ := kv
      by_cases h : k' = k
      · simp [mapSet, mapLookup, h]
      · simp [mapSet, mapLookup, h, ih]

theorem mapLookup_mapDelete_self (m : jsonMap) (k : String) :
    mapLookup (mapDelete m k) k = none := by
  induction m with
  | nil => rfl
  | cons kv rest ih =>
      obtain ⟨k', v'⟩ := kv
      by_cases h : k' = k
      · simpa [mapDelete, List.filter, h] using ih
      · simpa [mapDelete, List.filter, h, mapLookup] using ih

theorem mapLookup_mapDelete_ne (m : jsonMap) (kd k : String) (h : kd ≠ k) :
    mapLookup (mapDelete m kd) k = mapLookup m k := by
  induction m with
  | nil => rfl
  | cons kv rest ih =>
      obtain ⟨k', v'⟩ := kv
      by_cases h' : k' = kd
      · subst h'
        simpa [mapDelete, List.filter, mapLookup, h] using ih
      · by_cases h'' : k' = k
        · simp [mapDelete, List.filter, mapLookup, h', h'', Ne.symm h]
        · simpa [mapDelete, List.filter, mapLookup, h', h''] using ih

theorem foldl_mapDelete_not_mem (keys : List String) (m : jsonMap) (k : String)
    (h : k ∉ keys) :
    mapLookup (keys.foldl mapDelete m) k = mapLookup m k := by
  induction keys generalizing m with
  | nil => rfl
  | cons k₀ rest ih =>
      have h₁ : k₀ ≠ k := fun hk => h (by simp [hk])
      have h₂ : k ∉ rest := fun hk => h (by simp [hk])
      calc mapLookup (List.foldl mapDelete (mapDelete m k₀) rest) k
          = mapLookup (mapDelete m k₀) k := ih (mapDelete m k₀) h₂
        _ = mapLookup m k := mapLookup_mapDelete_ne m k₀ k h₁

theorem foldl_mapDelete_mem (keys : List String) (m : jsonMap) (k : String)
    (h : k ∈ keys) :
    mapLookup (keys.foldl mapDelete m) k = none := by
  induction keys generalizing m with
  | nil => simp at h
  | cons k₀ rest ih =>
      by_cases hk : k ∈ rest
      · exact ih (mapDelete m k₀) hk
      · have hk₀ : k₀ = k := by
          rcases List.mem_cons.mp h with h' | h'
          · exact h'.symm
          · exact absurd h' hk
        subst hk₀
        calc mapLookup (List.foldl mapDelete (mapDelete m k₀) rest) k₀
            = mapLookup (mapDelete m k₀) k₀ :=
              foldl_mapDelete_not_mem rest (mapDelete m k₀) k₀ hk
          _ = none := mapLookup_mapDelete_self m k₀

theorem transformEach_raw (r raw : Value) (mods : List Modifier)
    (kc : Option (String → String)) (xs : List Value) :
    transformEach ⟨r, mods, kc⟩ xs = transformEach ⟨raw, mods, kc⟩ xs := by
  induction xs with
  | nil => rfl
  | cons x rest ih =>
      show (match Base.Transform ⟨r, mods, kc⟩ x with
            | .error e => (.error e : Except SerError (List jsonMap))
            | .ok m =>
                match transformEach ⟨r, mods, kc⟩ rest with
                | .error e => .error e
                | .ok ms => .ok (m :: ms)) = _
      rw [show Base.Transform ⟨r, mods, kc⟩ x = Base.Transform ⟨raw, mods, kc⟩ x from rfl,
          ih]
      rfl

theorem taLoop_ok (raw : Value) (mods : List Modifier)
    (kc : Option (String → String)) (xs : List Value) (ms : List jsonMap)
    (acc : Option (List jsonMap))
    (h : transformEach ⟨raw, mods, kc⟩ xs = .ok ms) :
    ∃ b' s, taLoop ⟨raw, mods, kc⟩ xs acc = .ok (b', s)
      ∧ s.getD [] = acc.getD [] ++ ms := by
  induction xs generalizing raw ms acc with
  | nil =>
      refine ⟨⟨raw, mods, kc⟩, acc, rfl, ?_⟩
      have hms : ms = [] := by
        have h' : (Except.ok [] : Except SerError (List jsonMap)) = .ok ms := h
        simpa using h'.symm
      simp [hms]
  | cons x rest ih =>
      cases hx : Base.Transform ⟨raw, mods, kc⟩ x with
      | error e =>
          rw [transformEach, hx] at h
          simp at h
      | ok m =>
          rw [transformEach, hx] at h
          cases hrest : transformEach ⟨raw, mods, kc⟩ rest with
          | error e => rw [hrest] at h; simp at h
          | ok ms' =>
              rw [hrest] at h
              simp at h
              have hrest' : transformEach ⟨x, mods, kc⟩ rest = .ok ms' := by
                rw [transformEach_raw x raw mods kc rest]
                exact hrest
              obtain ⟨b', s, hloop, hs⟩ := ih x ms' (goAppend acc m) hrest'
              refine ⟨b', s, ?_, ?_⟩
              · have hx' : Base.result ⟨x, mods, kc⟩ = .ok m := hx
                show (match ((⟨x, mods, kc⟩ : Base), Base.result ⟨x, mods, kc⟩) with
                      | (_, .error e) =>
                          (.error e : Except SerError (Base × Option (List jsonMap)))
                      | (b'', .ok m') => taLoop b'' rest (goAppend acc m')) = _
                rw [hx']
                exact hloop
              · rw [hs, ← h]
                simp [goAppend]

theorem build_modifiers_aux (ops : List Op) (b : Base) :
    (ops.foldl register b).modifiers = b.modifiers ++ ops.map opSem
    ∧ (ops.foldl register b).keyConverter = b.keyConverter := by
  induction ops generalizing b with
  | nil => simp
  | cons op rest ih =>
      obtain ⟨h₁, h₂⟩ := ih (register b op)
      constructor
      · rw [List.foldl_cons, h₁, register_modifiers, List.map_cons]
        simp
      · rw [List.foldl_cons, h₂, register_keyConverter]

/-- C1: for every sequence of registered modifier operations and every
record, `Transform` executes exactly the registered modifiers in
registration order starting from an empty mapping, the final mapping
being their left-to-right fold over the empty mapping; in particular
`Pick "x"` then `Omit "x"` yields a mapping without `"x"`, while
`Omit "x"` then `Pick "x"` yields a mapping containing `"x"`. -/
theorem C1_transform_is_registered_fold (ops : List Op) (e : Value) :
    (ops.foldl register (New .notSet)).Transform e
      = runModifiers e (ops.map opSem) []
    ∧ (((New .notSet).Pick ["x"]).Omit ["x"]).Transform (.record [("x", .int 1)])
      = .ok []
    ∧ (((New .notSet).Omit ["x"]).Pick ["x"]).Transform (.record [("x", .int 1)])
      = .ok [("x", .int 1)] := by
  refine ⟨?_, rfl, rfl⟩
  obtain ⟨hm, hk⟩ := build_modifiers_aux ops (New .notSet)
  cases hb : ops.foldl register (New .notSet) with
  | mk raw mods kc =>
      rw [hb] at hm hk
      have hm' : mods = ops.map opSem := by simpa [New, Base.addDefaultKeyConverter] using hm
      have hk' : kc = none := by simpa [New, Base.addDefaultKeyConverter] using hk
      rw [transform_mk, hm', hk']
      cases runModifiers e (ops.map opSem) [] <;> rfl

/-- C2: every conditional variant evaluates its predicate at
`Transform` time against the record bound by that call: a false
predicate leaves the mapping untouched, a true one gives the effect of
the unconditional operation; the quantification over the transform-time
record shows the predicate is re-evaluated on each call. -/
theorem C2_conditional_variants (b : Base) (p : Value → Bool)
    (c : Value → Value) (keys : List String) (key : String) (v : Value)
    (f : Value → Value) (e : Value) :
    (p e = false →
      (b.PickFuncIf p c keys).Transform e = b.Transform e
      ∧ (b.PickIf p keys).Transform e = b.Transform e
      ∧ (b.OmitIf p keys).Transform e = b.Transform e
      ∧ (b.AddIf p key v).Transform e = b.Transform e
      ∧ (b.AddFuncIf p key f).Transform e = b.Transform e)
    ∧ (p e = true →
      (b.PickFuncIf p c keys).Transform e = (b.PickFunc c keys).Transform e
      ∧ (b.PickIf p keys).Transform e = (b.Pick keys).Transform e
      ∧ (b.OmitIf p keys).Transform e = (b.Omit keys).Transform e
      ∧ (b.AddIf p key v).Transform e = (b.Add key v).Transform e
      ∧ (b.AddFuncIf p key f).Transform e = (b.AddFunc key f).Transform e) := by
  cases b with
  | mk raw mods kc =>
      constructor
      · intro hp
        refine ⟨?_, ?_, ?_, ?_, ?_⟩ <;>
          exact transform_skip_mod raw mods kc _ e (fun m => by simp [hp])
      · intro hp
        refine ⟨?_, ?_, ?_, ?_, ?_⟩ <;>
          exact transform_congr_mod raw mods kc _ _ e
            (fun m => by simp [hp, alwaysTrue])

/-- C2 witness: the theorem applied to a concrete builder, predicate
and record, in both predicate outcomes. -/
theorem C2_witness :
    (((New .notSet).PickFuncIf alwaysFalse identity ["x"]).Transform
        (.record [("x", .int 1)])
      = (New .notSet).Transform (.record [("x", .int 1)]))
    ∧ (((New .notSet).PickFuncIf alwaysTrue identity ["x"]).Transform
        (.record [("x", .int 1)])
      = ((New .notSet).PickFunc identity ["x"]).Transform (.record [("x", .int 1)])) :=
  ⟨((C2_conditional_variants (New .notSet) alwaysFalse identity ["x"] "k" (.int 0)
      identity (.record [("x", .int 1)])).1 rfl).1,
   ((C2_conditional_variants (New .notSet) alwaysTrue identity ["x"] "k" (.int 0)
      identity (.record [("x", .int 1)])).2 rfl).1⟩

/-- C3: a second `Transform` on the same builder is unaffected by a
previous call: the builder state left by `Transform r₁` gives the same
result on `r₂` as the original builder. -/
theorem C3_transform_calls_independent (b : Base) (r₁ r₂ : Value) :
    ((b.TransformSt r₁).1).Transform r₂ = b.Transform r₂ := by
  cases b with
  | mk raw mods kc => rfl

/-- C4: the final mapping applies the installed key converter to every
key exactly once after all modifiers have run (the converter acts on
the raw modifier fold, so modifiers see unconverted keys); no converter
is the identity; `UseSnakeCase` sends the key `FirstName` to
`first_name` and `UseCamelCase` sends it to `firstName`. -/
theorem C4_key_casing (b : Base) (c : String → String) (e : Value) :
    (b.keyConverter = none → b.Transform e = rawResult b e)
    ∧ (b.ConvertKeys c).Transform e = (rawResult b e).map (transformedResult c)
    ∧ (((New .notSet).UseSnakeCase).Pick ["FirstName"]).Transform
        (.record [("FirstName", .str "Foo")]) = .ok [("first_name", .str "Foo")]
    ∧ (((New .notSet).UseCamelCase).Pick ["FirstName"]).Transform
        (.record [("FirstName", .str "Foo")]) = .ok [("firstName", .str "Foo")] := by
  cases b with
  | mk raw mods kc =>
      refine ⟨?_, ?_, rfl, rfl⟩
      · intro h
        have h' : kc = none := h
        subst h'
        rw [transform_mk]
        show (runModifiers e mods []).map (applyConv none) = runModifiers e mods []
        cases runModifiers e mods [] <;> rfl
      · show Base.Transform ⟨raw, mods, some c⟩ e = _
        rw [transform_mk]
        rfl

/-- C4 witness: the no-converter case of the theorem at a concrete
builder and record. -/
theorem C4_witness :
    (New .notSet).Transform (.record [("a", .int 2)])
      = rawResult (New .notSet) (.record [("a", .int 2)]) :=
  (C4_key_casing (New .notSet) toSnakeCase (.record [("a", .int 2)])).1 rfl

/-- C5: `TransformArray` returns the `NotASequenceError` error value
exactly when the input is not a sequence; on a sequence whose elements
all transform, it returns, with no error, the per-element transforms in
order; `MustTransformArray` returns the same slice on a sequence and
panics instead of returning an error on a non-sequence. -/
theorem C5_transform_array (b : Base) (v : Value) (xs : List Value)
    (ms : List jsonMap) :
    (returnsNotASequenceError (b.TransformArray v) = true ↔ v.isSeq = false)
    ∧ (transformEach b xs = .ok ms →
        ∃ b' s, b.TransformArray (.seq xs) = .ok (b', .slice s) ∧ s.getD [] = ms)
    ∧ (v.isSeq = false → b.MustTransformArray v = .error .notASequence)
    ∧ (transformEach b xs = .ok ms →
        ∃ b' s, b.MustTransformArray (.seq xs) = .ok (b', s) ∧ s.getD [] = ms) := by
  cases b with
  | mk raw mods kc =>
      have harr : ∀ ms', transformEach (⟨raw, mods, kc⟩ : Base) xs = .ok ms' →
          ∃ b' s, Base.TransformArray ⟨raw, mods, kc⟩ (.seq xs) = .ok (b', .slice s)
            ∧ s.getD [] = ms' := by
        intro ms' h
        obtain ⟨b', s, hloop, hs⟩ := taLoop_ok raw mods kc xs ms' none h
        refine ⟨b', s, ?_, by simpa using hs⟩
        simp [Base.TransformArray, hloop]
      refine ⟨?_, harr ms, ?_, ?_⟩
      · cases v with
        | seq xs' =>
            simp only [Value.isSeq]
            cases hl : taLoop ⟨raw, mods, kc⟩ xs' none with
            | error e => simp [Base.TransformArray, hl, returnsNotASequenceError]
            | ok p => simp [Base.TransformArray, hl, returnsNotASequenceError]
        | null => simp [Base.TransformArray, returnsNotASequenceError, Value.isSeq]
        | int n => simp [Base.TransformArray, returnsNotASequenceError, Value.isSeq]
        | str s => simp [Base.TransformArray, returnsNotASequenceError, Value.isSeq]
        | bool q => simp [Base.TransformArray, returnsNotASequenceError, Value.isSeq]
        | record fs => simp [Base.TransformArray, returnsNotASequenceError, Value.isSeq]
      · intro hv
        cases v with
        | null => rfl
        | int n => rfl
        | str s => rfl
        | bool q => rfl
        | record fs => rfl
        | seq xs' => simp [Value.isSeq] at hv
      · intro h
        obtain ⟨b', s, harr', hs⟩ := harr ms h
        exact ⟨b', s, by simp [Base.MustTransformArray, harr'], hs⟩

/-- C5 witness: the theorem at a non-sequence input and at a one-record
sequence. -/
theorem C5_witness :
    returnsNotASequenceError ((New .notSet).TransformArray (.int 1)) = true
    ∧ (∃ b' s, (New .notSet).TransformArray (.seq [.record []])
        = .ok (b', .slice s) ∧ s.getD [] = [[]])
    ∧ (New .notSet).MustTransformArray (.int 1) = .error .notASequence :=
  ⟨(C5_transform_array (New .notSet) (.int 1) [] []).1.mpr rfl,
   (C5_transform_array (New .notSet) (.int 1) [.record []] [[]]).2.1 rfl,
   (C5_transform_array (New .notSet) (.int 1) [] []).2.2.1 rfl⟩

/-- C6: the code evaluated at the failing input: for an empty input
sequence both `TransformArray` and `MustTransformArray` return the nil
(absent) slice — `var result []map[string]interface{}` is never
appended to — not an empty non-nil slice as the claim states. -/
theorem C6_empty_input_yields_nil_slice :
    (New .notSet).TransformArray (.seq []) = .ok (New .notSet, .slice none)
    ∧ (New .notSet).MustTransformArray (.seq []) = .ok (New .notSet, none) :=
  ⟨rfl, rfl⟩

/-- C7: `PickAll` discards the mapping accumulated by the earlier
modifiers and replaces it with exactly the exported fields of the bound
record (names as keys, values unchanged); on a non-record value it
fails with the unsupported-type panic. -/
theorem C7_pickall_replaces (b : Base) (e : Value) (fs : List (String × Value)) :
    (b.PickAll).Transform e
      = ((rawResult b e).bind (fun _m => structsMap e)).map (applyConv b.keyConverter)
    ∧ structsMap (.record fs) = .ok fs
    ∧ (e.isRecord = false → structsMap e = .error .unsupportedType) := by
  cases b with
  | mk raw mods kc =>
      refine ⟨?_, rfl, ?_⟩
      · exact transform_snoc_mk raw mods kc _ e
      · intro h
        cases e <;> simp_all [structsMap, Value.isRecord]

/-- C7 witness: the theorem at a concrete builder, a non-record value
and a concrete field list. -/
theorem C7_witness :
    structsMap (.int 1) = .error .unsupportedType :=
  (C7_pickall_replaces (New .notSet) (.int 1) []).2.2 rfl

theorem pickFuncIf_rawResult (raw' : Value) (mods : List Modifier)
    (kc : Option (String → String)) (p : Value → Bool) (cv : Value → Value)
    (keys : List String) (e : Value) :
    rawResult (Base.PickFuncIf ⟨raw', mods, kc⟩ p cv keys) e
      = (rawResult ⟨raw', mods, kc⟩ e).bind
          (fun m₀ => if p e then pickLoop e cv keys m₀ else .ok m₀) :=
  rawResult_snoc_mk raw' mods kc _ e

theorem omitIf_rawResult (raw' : Value) (mods : List Modifier)
    (kc : Option (String → String)) (p : Value → Bool)
    (keys : List String) (e : Value) :
    rawResult (Base.OmitIf ⟨raw', mods, kc⟩ p keys) e
      = (rawResult ⟨raw', mods, kc⟩ e).bind
          (fun m₀ => .ok (if p e then keys.foldl mapDelete m₀ else m₀)) :=
  rawResult_snoc_mk raw' mods kc _ e

/-- C8: a `Pick` (or `PickFunc`) naming an absent field fails with the
no-such-field panic at `Transform` time; naming a present field stores
its (converted) value under that name, overwriting any existing value
for that key. -/
theorem C8_pick_absent_or_present (b : Base) (fs : List (String × Value))
    (k : String) (v : Value) (c : Value → Value) (m : jsonMap) :
    (mapLookup fs k = none →
      rawResult (b.Pick [k]) (.record fs)
        = (rawResult b (.record fs)).bind
            (fun _m => .error (.noSuchField k))
      ∧ rawResult (b.PickFunc c [k]) (.record fs)
        = (rawResult b (.record fs)).bind
            (fun _m => .error (.noSuchField k)))
    ∧ (mapLookup fs k = some v →
      rawResult (b.Pick [k]) (.record fs)
        = (rawResult b (.record fs)).map (fun m₀ => mapSet m₀ k v)
      ∧ rawResult (b.PickFunc c [k]) (.record fs)
        = (rawResult b (.record fs)).map (fun m₀ => mapSet m₀ k (c v)))
    ∧ mapLookup (mapSet m k v) k = some v := by
  cases b with
  | mk raw mods kc =>
      refine ⟨?_, ?_, mapLookup_mapSet_self m k v⟩
      · intro hnone
        have h₁ : ∀ (cv : Value → Value) m₀,
            (if alwaysTrue (.record fs) then pickLoop (.record fs) cv [k] m₀
             else .ok m₀)
              = (.error (.noSuchField k) : Except SerError jsonMap) := by
          intro cv m₀
          simp [alwaysTrue, pickLoop, fieldByName, hnone]
        constructor
        · calc rawResult (Base.Pick ⟨raw, mods, kc⟩ [k]) (.record fs)
              = (rawResult ⟨raw, mods, kc⟩ (.record fs)).bind
                  (fun m₀ => if alwaysTrue (.record fs)
                    then pickLoop (.record fs) identity [k] m₀ else .ok m₀) :=
                pickFuncIf_rawResult raw mods kc alwaysTrue identity [k] (.record fs)
            _ = (rawResult ⟨raw, mods, kc⟩ (.record fs)).bind
                  (fun _m => .error (.noSuchField k)) :=
                except_bind_congr _ _ _ (fun m₀ => h₁ identity m₀)
        · calc rawResult (Base.PickFunc ⟨raw, mods, kc⟩ c [k]) (.record fs)
              = (rawResult ⟨raw, mods, kc⟩ (.record fs)).bind
                  (fun m₀ => if alwaysTrue (.record fs)
                    then pickLoop (.record fs) c [k] m₀ else .ok m₀) :=
                pickFuncIf_rawResult raw mods kc alwaysTrue c [k] (.record fs)
            _ = (rawResult ⟨raw, mods, kc⟩ (.record fs)).bind
                  (fun _m => .error (.noSuchField k)) :=
                except_bind_congr _ _ _ (fun m₀ => h₁ c m₀)
      · intro hsome
        have h₁ : ∀ (cv : Value → Value) m₀,
            (if alwaysTrue (.record fs) then pickLoop (.record fs) cv [k] m₀
             else .ok m₀)
              = (.ok (mapSet m₀ k (cv v)) : Except SerError jsonMap) := by
          intro cv m₀
          simp [alwaysTrue, pickLoop, fieldByName, hsome]
        constructor
        · calc rawResult (Base.Pick ⟨raw, mods, kc⟩ [k]) (.record fs)
              = (rawResult ⟨raw, mods, kc⟩ (.record fs)).bind
                  (fun m₀ => if alwaysTrue (.record fs)
                    then pickLoop (.record fs) identity [k] m₀ else .ok m₀) :=
                pickFuncIf_rawResult raw mods kc alwaysTrue identity [k] (.record fs)
            _ = (rawResult ⟨raw, mods, kc⟩ (.record fs)).bind
                  (fun m₀ => .ok (mapSet m₀ k v)) :=
                except_bind_congr _ _ _ (fun m₀ => h₁ identity m₀)
            _ = (rawResult ⟨raw, mods, kc⟩ (.record fs)).map
                  (fun m₀ => mapSet m₀ k v) :=
                except_bind_ok _ _
        · calc rawResult (Base.PickFunc ⟨raw, mods, kc⟩ c [k]) (.record fs)
              = (rawResult ⟨raw, mods, kc⟩ (.record fs)).bind
                  (fun m₀ => if alwaysTrue (.record fs)
                    then pickLoop (.record fs) c [k] m₀ else .ok m₀) :=
                pickFuncIf_rawResult raw mods kc alwaysTrue c [k] (.record fs)
            _ = (rawResult ⟨raw, mods, kc⟩ (.record fs)).bind
                  (fun m₀ => .ok (mapSet m₀ k (c v))) :=
                except_bind_congr _ _ _ (fun m₀ => h₁ c m₀)
            _ = (rawResult ⟨raw, mods, kc⟩ (.record fs)).map
                  (fun m₀ => mapSet m₀ k (c v)) :=
                except_bind_ok _ _

/-- C8 witness: the theorem at a concrete record with an absent and a
present field name. -/
theorem C8_witness :
    rawResult ((New .notSet).Pick ["missing"]) (.record [("x", .int 1)])
      = (rawResult (New .notSet) (.record [("x", .int 1)])).bind
          (fun _m => .error (.noSuchField "missing"))
    ∧ rawResult ((New .notSet).Pick ["x"]) (.record [("x", .int 1)])
      = (rawResult (New .notSet) (.record [("x", .int 1)])).map
          (fun m₀ => mapSet m₀ "x" (.int 1))
    ∧ mapLookup (mapSet [("x", .int 0)] "x" (.int 1)) "x" = some (.int 1) :=
  ⟨((C8_pick_absent_or_present (New .notSet) [("x", .int 1)] "missing" (.int 1)
      identity [("x", .int 0)]).1 rfl).1,
   ((C8_pick_absent_or_present (New .notSet) [("x", .int 1)] "x" (.int 1)
      identity [("x", .int 0)]).2.1 rfl).1,
   (C8_pick_absent_or_present (New .notSet) [("x", .int 1)] "x" (.int 1)
      identity [("x", .int 0)]).2.2⟩

/-- C9: `Omit` removes exactly the named keys that are present, leaves
every other entry unchanged, and never fails: its effect on the
modifier fold is a pure deletion fold (no new error). -/
theorem C9_omit_removes_named (b : Base) (e : Value) (keys : List String)
    (m : jsonMap) (k : String) :
    rawResult (b.Omit keys) e
      = (rawResult b e).map (fun m₀ => keys.foldl mapDelete m₀)
    ∧ (k ∈ keys → mapLookup (keys.foldl mapDelete m) k = none)
    ∧ (k ∉ keys → mapLookup (keys.foldl mapDelete m) k = mapLookup m k) := by
  cases b with
  | mk raw mods kc =>
      refine ⟨?_, foldl_mapDelete_mem keys m k, foldl_mapDelete_not_mem keys m k⟩
      calc rawResult (Base.Omit ⟨raw, mods, kc⟩ keys) e
          = (rawResult ⟨raw, mods, kc⟩ e).bind
              (fun m₀ => .ok (if alwaysTrue e then keys.foldl mapDelete m₀ else m₀)) :=
            omitIf_rawResult raw mods kc alwaysTrue keys e
        _ = (rawResult ⟨raw, mods, kc⟩ e).bind
              (fun m₀ => .ok (keys.foldl mapDelete m₀)) :=
            except_bind_congr _ _ _ (fun m₀ => by simp [alwaysTrue])
        _ = (rawResult ⟨raw, mods, kc⟩ e).map (fun m₀ => keys.foldl mapDelete m₀) :=
          except_bind_ok _ _

/-- C9 witness: the theorem at a concrete mapping, with a named key
that is present and an unnamed key that stays. -/
theorem C9_witness :
    mapLookup (List.foldl mapDelete [("x", .int 1), ("y", .int 2)] ["x"]) "x" = none
    ∧ mapLookup (List.foldl mapDelete [("x", .int 1), ("y", .int 2)] ["x"]) "y"
      = mapLookup [("x", .int 1), ("y", .int 2)] "y" :=
  ⟨(C9_omit_removes_named (New .notSet) (.int 0) ["x"]
      [("x", .int 1), ("y", .int 2)] "x").2.1 (by decide),
   (C9_omit_removes_named (New .notSet) (.int 0) ["x"]
      [("x", .int 1), ("y", .int 2)] "y").2.2 (by decide)⟩

/-- C10: installing a key converter replaces any previously installed
one — via `ConvertKeys` or any `Use...Case` convenience, including the
process-wide default installed at construction — so installing `c₂`
after `c₁` equals installing `c₂` alone, and `Transform` applies only
`c₂`. -/
theorem C10_converter_replaced (b : Base) (c₁ c₂ : String → String)
    (e : Value) (dc : KeyCase) :
    (b.ConvertKeys c₁).ConvertKeys c₂ = b.ConvertKeys c₂
    ∧ b.UseSnakeCase.ConvertKeys c₂ = b.ConvertKeys c₂
    ∧ b.UseCamelCase.ConvertKeys c₂ = b.ConvertKeys c₂
    ∧ b.UsePascalCase.ConvertKeys c₂ = b.ConvertKeys c₂
    ∧ (b.ConvertKeys c₁).UseSnakeCase = b.UseSnakeCase
    ∧ (New dc).ConvertKeys c₂ = (New .notSet).ConvertKeys c₂
    ∧ ((b.ConvertKeys c₁).ConvertKeys c₂).Transform e
      = (b.ConvertKeys c₂).Transform e := by
  cases b with
  | mk raw mods kc =>
      refine ⟨rfl, rfl, rfl, rfl, rfl, ?_, rfl⟩
      cases dc <;> rfl

end Structomap
